import Mathlib

/-!
# Verification of the quantitative-finance core of `VnInvestmentAnalyzer.jsx`

Shallow embedding of the bond-analytics functions (`calculateDuration`,
`calculateModifiedDuration`, `calculateConvexity`), the random-sampling
primitives (`randomNormal`, `vasicekRate`), and the Monte-Carlo engine
(`runMonteCarloSimulation` together with its local helpers `getPercentile`
and `createHistogram`).

JS numbers are idealised as rationals (`ℚ`).  A JS arithmetic step that
produces a non-finite value (`Infinity` / `NaN`, which in this code can only
arise from a division whose denominator is `0`) is modelled as `none` of an
`Option ℚ`; once non-finite, a JS value stays non-finite through the
remaining additions, multiplications and divisions of these functions, which
the `Option` monad mirrors.  The code itself raises no error of any kind.
-/

namespace VnInvest

/-- JS floating division idealised over `ℚ`: a zero denominator yields a
non-finite value (`±Infinity` or `NaN`), modelled as `none`. -/
def jsDiv (a b : ℚ) : Option ℚ :=
  if b = 0 then none else some (a / b)

/-- Box–Muller sampler, line 1265: `return z0 * stdDev + mean`.  The standard
deviate `z0 = sqrt(-2 ln u1) · cos(2π u2)` is a finite real number for every
uniform pair drawn (the code re-draws while `u1 = 0` or `u2 = 0`); it is
abstracted here as the parameter `z0`, so properties quantified over `z0`
hold for every underlying uniform random stream. -/
def randomNormal (mean stdDev z0 : ℚ) : ℚ :=
  z0 * stdDev + mean

/-- Vasicek short-rate step, lines 1275–1279:
`drift = a*(b-r0)*dt; diffusion = sigma*sqrt(dt)*randomNormal(0,1);
return Math.max(0, r0 + drift + diffusion)`.  `sqrtDt` abstracts the finite
value `Math.sqrt(dt)` and `z0` the standard deviate fed to `randomNormal`. -/
def vasicekRate (r0 a b sigma dt sqrtDt z0 : ℚ) : ℚ :=
  max 0 (r0 + a * (b - r0) * dt + sigma * sqrtDt * randomNormal 0 1 z0)

/-- The accumulation loop of `calculateDuration` (lines 1289–1293), iterated
for `t = 1..n`: returns the pair `(duration, price)` of the two running sums,
where each period adds `pv = couponPayment / base^t` to the price and
`(t / frequency) * pv` to the duration numerator. -/
def durationLoop (couponPayment base : ℚ) (frequency : ℕ) : ℕ → Option (ℚ × ℚ)
  | 0 => some (0, 0)
  | n + 1 => do
      let dp ← durationLoop couponPayment base frequency n
      let pv ← jsDiv couponPayment (base ^ (n + 1))
      let w ← jsDiv ((n : ℚ) + 1) (frequency : ℚ)
      some (dp.1 + w * pv, dp.2 + pv)

/-- `calculateDuration(couponRate, maturity, ytm, frequency)`, lines
1282–1301.  `maturity` and `frequency` are taken as naturals, the domain on
which the source's loop bound `periods = maturity * frequency` is the integer
number of coupon periods. -/
def calculateDuration (couponRate : ℚ) (maturity : ℕ) (ytm : ℚ)
    (frequency : ℕ) : Option ℚ := do
  let couponPayment ← jsDiv (couponRate * 100) (frequency : ℚ)
  let y ← jsDiv ytm (frequency : ℚ)
  let base := 1 + y
  let periods := maturity * frequency
  let dp ← durationLoop couponPayment base frequency periods
  let principalPV ← jsDiv 100 (base ^ periods)
  jsDiv (dp.1 + (maturity : ℚ) * principalPV) (dp.2 + principalPV)

/-- `calculateModifiedDuration(macaulayDuration, ytm, frequency)`, lines
1304–1306: `macaulayDuration / (1 + ytm / frequency)`. -/
def calculateModifiedDuration (macaulayDuration ytm : ℚ) (frequency : ℕ) :
    Option ℚ := do
  let y ← jsDiv ytm (frequency : ℚ)
  jsDiv macaulayDuration (1 + y)

/-- The accumulation loop of `calculateConvexity` (lines 1316–1320), iterated
for `t = 1..n`: each period adds `pv` to the price and
`(t * (t+1)) * pv / frequency²` to the convexity numerator. -/
def convexityLoop (couponPayment base : ℚ) (frequency : ℕ) : ℕ → Option (ℚ × ℚ)
  | 0 => some (0, 0)
  | n + 1 => do
      let cp ← convexityLoop couponPayment base frequency n
      let pv ← jsDiv couponPayment (base ^ (n + 1))
      let term ← jsDiv (((n : ℚ) + 1) * (((n : ℚ) + 1) + 1) * pv)
        ((frequency : ℚ) ^ 2)
      some (cp.1 + term, cp.2 + pv)

/-- `calculateConvexity(couponRate, maturity, ytm, frequency)`, lines
1309–1328. -/
def calculateConvexity (couponRate : ℚ) (maturity : ℕ) (ytm : ℚ)
    (frequency : ℕ) : Option ℚ := do
  let couponPayment ← jsDiv (couponRate * 100) (frequency : ℚ)
  let y ← jsDiv ytm (frequency : ℚ)
  let base := 1 + y
  let periods := maturity * frequency
  let cp ← convexityLoop couponPayment base frequency periods
  let principalPV ← jsDiv 100 (base ^ periods)
  let pterm ← jsDiv (((periods : ℚ)) * ((periods : ℚ) + 1) * principalPV)
    ((frequency : ℚ) ^ 2)
  jsDiv (cp.1 + pterm) ((cp.2 + principalPV) * (1 + y) ^ 2)

/-- The spec's Macaulay-duration formula, written from the spec's words
(§4.1): `Σ(t/freq · PV(t)) / price` over all cash flows including the
principal, where `PV(t)` discounts the period coupon at rate `ytm/freq` and
the principal contributes present value `100 / base^n` with time weight
`maturityYears`. -/
def specMacaulayDuration (couponRate : ℚ) (maturity : ℕ) (ytm : ℚ)
    (frequency : ℕ) : ℚ :=
  let f : ℚ := (frequency : ℚ)
  let base : ℚ := 1 + ytm / f
  let n : ℕ := maturity * frequency
  let couponPV : ℕ → ℚ := fun t => couponRate * 100 / f / base ^ t
  let principalPV : ℚ := 100 / base ^ n
  ((∑ t in Finset.Icc 1 n, ((t : ℚ) / f) * couponPV t)
      + (maturity : ℚ) * principalPV)
    / ((∑ t in Finset.Icc 1 n, couponPV t) + principalPV)

/-!
## Monte-Carlo engine (`runMonteCarloSimulation`, lines 1636–1760)

The source runs two instances of the same simulation loop in lockstep — one
for "Option C" and one for the portfolio — each with its own mean, standard
deviation and independently drawn random returns; there is no interaction
between the two.  The engine is therefore embedded once, parameterised by the
distribution parameters and by a deviate stream `z : ℕ → ℕ → ℚ` giving the
standard normal deviate consumed at trial `i`, year `y` (the source draws
them sequentially from a global generator; re-indexing the stream by
(trial, year) is a bijective relabelling and all theorems quantify over every
stream).  The source hardcodes `trials = 10000`, `years = 10`,
`pathsToShow = 100` and `initialInvestment = 200000000`; the embedding takes
them as parameters so the hardcoded run is one instance.
-/

/-- The inner compounding loop (lines 1664–1675 / 1688–1694): starting from
`initialInvestment`, for `year = 1..years` the value is multiplied by
`(1 + r year)` where `r year` is the annual return drawn for that year. -/
def compoundLoop (init : ℚ) (r : ℕ → ℚ) : ℕ → ℚ
  | 0 => init
  | y + 1 => compoundLoop init r y * (1 + r (y + 1))

/-- Terminal value of trial `i`: the compounded value after `years` years,
with the annual return of year `y` drawn as `randomNormal mean stdDev`
applied to the deviate `z i y`. -/
def mcTerminal (z : ℕ → ℕ → ℚ) (mean stdDev init : ℚ) (years i : ℕ) : ℚ :=
  compoundLoop init (fun y => randomNormal mean stdDev (z i y)) years

/-- The sample path recorded for trial `i` (lines 1659–1674): the point list
`[{year: 0, value: initialInvestment}, …, {year: years, value}]`, one point
pushed per simulated year after the initial point. -/
def mcPath (z : ℕ → ℕ → ℚ) (mean stdDev init : ℚ) (years i : ℕ) :
    List (ℕ × ℚ) :=
  (List.range (years + 1)).map
    (fun y => (y, compoundLoop init (fun yy => randomNormal mean stdDev (z i yy)) y))

/-- The terminal-value sequence of one distribution, in push order
(lines 1657–1698): the first loop runs `i = 0 .. min(trials, pathsToShow)-1`
and pushes each terminal value, the second loop runs
`i = pathsToShow .. trials-1` and pushes the rest. -/
def mcResults (z : ℕ → ℕ → ℚ) (trials years pathsToShow : ℕ)
    (init mean stdDev : ℚ) : List ℚ :=
  (List.range (Nat.min trials pathsToShow)).map (mcTerminal z mean stdDev init years)
    ++ (List.range' pathsToShow (trials - pathsToShow)).map
        (mcTerminal z mean stdDev init years)

/-- The captured sample paths of one distribution (lines 1657–1681): one path
pushed per iteration of the first loop, `i = 0 .. min(trials, pathsToShow)-1`. -/
def mcPaths (z : ℕ → ℕ → ℚ) (trials years pathsToShow : ℕ)
    (init mean stdDev : ℚ) : List (List (ℕ × ℚ)) :=
  (List.range (Nat.min trials pathsToShow)).map (mcPath z mean stdDev init years)

/-- `getPercentile(arr, percentile)`, lines 1705–1708 (identically lines
309–312): `arr[Math.floor(arr.length * percentile)]`.  There is no clamping;
a JS out-of-range index yields `undefined`, modelled as `none` (a negative
floored index likewise reads no element). -/
def getPercentile (arr : List ℚ) (percentile : ℚ) : Option ℚ :=
  if ⌊(arr.length : ℚ) * percentile⌋ < 0 then none
  else arr.get? (⌊(arr.length : ℚ) * percentile⌋).toNat

/-- `Math.min(...data)` over a non-empty spread `v :: rest`. -/
def jsMin (v : ℚ) (rest : List ℚ) : ℚ := rest.foldl Min.min v

/-- `Math.max(...data)` over a non-empty spread `v :: rest`. -/
def jsMax (v : ℚ) (rest : List ℚ) : ℚ := rest.foldl Max.max v

/-- The bin index `Math.min(Math.floor((value - min) / binSize), bins - 1)`
of line 1719, with `bins = 50`.  When `binSize = 0` (all data equal, so
`value = min`) JS computes `0/0 = NaN` and `histogram[NaN]++` touches no
numeric entry; when the floored quotient is negative `histogram[negative]++`
likewise touches no entry.  Both no-ops are modelled as `none`. -/
def binIndex (binSize m value : ℚ) : Option ℕ :=
  if binSize = 0 then none
  else if Min.min ⌊(value - m) / binSize⌋ 49 < 0 then none
  else some (Min.min ⌊(value - m) / binSize⌋ 49).toNat

/-- `histogram[i]++` for an (optional, see `binIndex`) index `i`. -/
def jsInc (h : List ℕ) : Option ℕ → List ℕ
  | none => h
  | some i => h.set i (h.getD i 0 + 1)

/-- `createHistogram(data, …)`, lines 1711–1728, reduced to its list of bin
counts: 50 bins over `[min, max]`, each value incrementing the count of its
`binIndex`.  (The source then decorates each count with its bin-center value
`min + (i + 0.5) * binSize` and a color for charting; the counts are the
numeric content.)  For empty `data` the JS loop body never runs and the 50
zero counts are returned unchanged. -/
def createHistogram (data : List ℚ) : List ℕ :=
  match data with
  | [] => List.replicate 50 0
  | v :: rest =>
    let m := jsMin v rest
    let binSize := (jsMax v rest - m) / 50
    (v :: rest).foldl (fun h value => jsInc h (binIndex binSize m value))
      (List.replicate 50 0)

/-! ## Helper lemmas -/

lemma compoundLoop_of_zero_returns (init : ℚ) (r : ℕ → ℚ) (h : ∀ y, r y = 0) :
    ∀ n, compoundLoop init r n = init
  | 0 => rfl
  | n + 1 => by
      rw [compoundLoop, compoundLoop_of_zero_returns init r h n, h, add_zero,
        mul_one]

lemma mcTerminal_zero_stdDev (z : ℕ → ℕ → ℚ) (init : ℚ) (years i : ℕ) :
    mcTerminal z 0 0 init years i = init := by
  apply compoundLoop_of_zero_returns
  intro y
  simp [randomNormal]

lemma getPercentile_nil (q : ℚ) : getPercentile [] q = none := by
  simp [getPercentile]

lemma jsInc_length (h : List ℕ) (o : Option ℕ) : (jsInc h o).length = h.length := by
  cases o <;> simp [jsInc]

lemma jsInc_sum (h : List ℕ) (i : ℕ) (hi : i < h.length) :
    (jsInc h (some i)).sum = h.sum + 1 := by
  induction h generalizing i with
  | nil => simp at hi
  | cons a t ih =>
    cases i with
    | zero => simp [jsInc]; omega
    | succ n =>
      have hn : n < t.length := by simpa using hi
      simp only [jsInc, List.set_cons_succ, List.getD_cons_succ, List.sum_cons]
      have := ih n hn
      simp only [jsInc] at this
      omega

lemma foldl_jsInc_sum (idx : ℚ → Option ℕ) (l : List ℚ) :
    ∀ h : List ℕ, (∀ x ∈ l, ∃ i, idx x = some i ∧ i < h.length) →
      (l.foldl (fun acc x => jsInc acc (idx x)) h).sum = h.sum + l.length := by
  induction l with
  | nil => intro h _; simp
  | cons x t ih =>
    intro h hcond
    obtain ⟨i, hxi, hilt⟩ := hcond x (by simp)
    rw [List.foldl_cons, hxi]
    rw [ih (jsInc h (some i)) (fun y hy => by
      obtain ⟨j, hj, hjl⟩ := hcond y (List.mem_cons_of_mem x hy)
      exact ⟨j, hj, by rw [jsInc_length]; exact hjl⟩)]
    rw [jsInc_sum h i hilt]
    simp only [List.length_cons]
    omega

lemma foldl_min_le_init (l : List ℚ) (a : ℚ) : l.foldl Min.min a ≤ a := by
  induction l generalizing a with
  | nil => exact le_refl a
  | cons b t ih => exact le_trans (ih (Min.min a b)) (min_le_left a b)

lemma foldl_min_le_mem (l : List ℚ) (a x : ℚ) :
    x ∈ l → l.foldl Min.min a ≤ x := by
  induction l generalizing a with
  | nil => intro hx; simp at hx
  | cons b t ih =>
    intro hx
    rcases List.mem_cons.mp hx with rfl | hx'
    · exact le_trans (foldl_min_le_init t (Min.min a x)) (min_le_right a x)
    · exact ih (Min.min a b) hx'

lemma binIndex_valid (binSize m x : ℚ) (hs : 0 < binSize) (hmx : m ≤ x) :
    ∃ i, binIndex binSize m x = some i ∧ i < 50 := by
  have hns : binSize ≠ 0 := ne_of_gt hs
  have hq : 0 ≤ (x - m) / binSize := div_nonneg (by linarith) (le_of_lt hs)
  have hf0 : (0 : ℤ) ≤ ⌊(x - m) / binSize⌋ := Int.floor_nonneg.mpr hq
  have hj0 : (0 : ℤ) ≤ Min.min ⌊(x - m) / binSize⌋ 49 := le_min hf0 (by norm_num)
  have hj49 : Min.min ⌊(x - m) / binSize⌋ 49 ≤ 49 := min_le_right _ _
  refine ⟨(Min.min ⌊(x - m) / binSize⌋ 49).toNat, ?_, by omega⟩
  rw [binIndex, if_neg hns, if_neg (by omega)]

lemma durationLoop_eq (cp base : ℚ) (f : ℕ) (hb : base ≠ 0)
    (hf : (f : ℚ) ≠ 0) :
    ∀ n, durationLoop cp base f n
      = some (∑ t in Finset.Icc 1 n, ((t : ℚ) / (f : ℚ)) * (cp / base ^ t),
              ∑ t in Finset.Icc 1 n, cp / base ^ t)
  | 0 => by simp [durationLoop]
  | n + 1 => by
      rw [durationLoop, durationLoop_eq cp base f hb hf n]
      rw [show jsDiv cp (base ^ (n + 1)) = some (cp / base ^ (n + 1)) from by
        rw [jsDiv, if_neg (pow_ne_zero _ hb)]]
      rw [show jsDiv ((n : ℚ) + 1) (f : ℚ) = some (((n : ℚ) + 1) / (f : ℚ))
        from by rw [jsDiv, if_neg hf]]
      simp only [Option.bind_eq_bind', Option.some_bind']
      rw [Finset.sum_Icc_succ_top (Nat.le_add_left 1 n),
        Finset.sum_Icc_succ_top (Nat.le_add_left 1 n)]
      push_cast
      ring_nf

lemma calculateDuration_eq_spec (couponRate : ℚ) (maturity : ℕ) (ytm : ℚ)
    (frequency : ℕ) (hc : 0 ≤ couponRate) (hf : 1 ≤ frequency)
    (hb : 0 < 1 + ytm / (frequency : ℚ)) :
    calculateDuration couponRate maturity ytm frequency
      = some (specMacaulayDuration couponRate maturity ytm frequency) := by
  have hfQ : (frequency : ℚ) ≠ 0 := Nat.cast_ne_zero.mpr (by omega)
  have hfpos : (0 : ℚ) < (frequency : ℚ) :=
    by exact_mod_cast (by omega : 0 < frequency)
  have hbne : (1 + ytm / (frequency : ℚ)) ≠ 0 := ne_of_gt hb
  have hcp : 0 ≤ couponRate * 100 / (frequency : ℚ) := by positivity
  have hppv : 0 < (100 : ℚ) / (1 + ytm / (frequency : ℚ)) ^ (maturity * frequency) :=
    div_pos (by norm_num) (pow_pos hb _)
  have hsum : 0 ≤ ∑ t in Finset.Icc 1 (maturity * frequency),
      couponRate * 100 / (frequency : ℚ) / (1 + ytm / (frequency : ℚ)) ^ t :=
    Finset.sum_nonneg fun t _ => div_nonneg (by positivity) (le_of_lt (pow_pos hb _))
  have hden : (∑ t in Finset.Icc 1 (maturity * frequency),
      couponRate * 100 / (frequency : ℚ) / (1 + ytm / (frequency : ℚ)) ^ t)
        + 100 / (1 + ytm / (frequency : ℚ)) ^ (maturity * frequency) ≠ 0 :=
    ne_of_gt (add_pos_of_nonneg_of_pos hsum hppv)
  rw [calculateDuration]
  rw [show jsDiv (couponRate * 100) (frequency : ℚ)
      = some (couponRate * 100 / (frequency : ℚ)) from by rw [jsDiv, if_neg hfQ]]
  rw [show jsDiv ytm (frequency : ℚ) = some (ytm / (frequency : ℚ)) from by
    rw [jsDiv, if_neg hfQ]]
  simp only [Option.bind_eq_bind', Option.some_bind']
  rw [durationLoop_eq _ _ _ hbne hfQ]
  simp only [Option.bind_eq_bind', Option.some_bind']
  rw [show jsDiv 100 ((1 + ytm / (frequency : ℚ)) ^ (maturity * frequency))
      = some (100 / (1 + ytm / (frequency : ℚ)) ^ (maturity * frequency)) from by
    rw [jsDiv, if_neg (pow_ne_zero _ hbne)]]
  simp only [Option.bind_eq_bind', Option.some_bind']
  rw [jsDiv, if_neg hden]
  simp only [specMacaulayDuration]

lemma specMacaulayDuration_pos (couponRate : ℚ) (maturity : ℕ) (ytm : ℚ)
    (frequency : ℕ) (hc : 0 ≤ couponRate) (hm : 1 ≤ maturity)
    (hf : 1 ≤ frequency) (hb : 0 < 1 + ytm / (frequency : ℚ)) :
    0 < specMacaulayDuration couponRate maturity ytm frequency := by
  have hfpos : (0 : ℚ) < (frequency : ℚ) :=
    by exact_mod_cast (by omega : 0 < frequency)
  have hppv : 0 < (100 : ℚ) / (1 + ytm / (frequency : ℚ)) ^ (maturity * frequency) :=
    div_pos (by norm_num) (pow_pos hb _)
  have hmQ : (0 : ℚ) < (maturity : ℚ) :=
    by exact_mod_cast (by omega : 0 < maturity)
  simp only [specMacaulayDuration]
  apply div_pos
  · apply add_pos_of_nonneg_of_pos
    · exact Finset.sum_nonneg fun t _ => mul_nonneg
        (div_nonneg (Nat.cast_nonneg t) (le_of_lt hfpos))
        (div_nonneg (by positivity) (le_of_lt (pow_pos hb _)))
    · exact mul_pos hmQ hppv
  · apply add_pos_of_nonneg_of_pos
    · exact Finset.sum_nonneg fun t _ =>
        div_nonneg (by positivity) (le_of_lt (pow_pos hb _))
    · exact hppv

lemma convexityLoop_eq (cp base : ℚ) (f : ℕ) (hb : base ≠ 0)
    (hf : (f : ℚ) ≠ 0) :
    ∀ n, convexityLoop cp base f n
      = some (∑ t in Finset.Icc 1 n,
                (t : ℚ) * ((t : ℚ) + 1) * (cp / base ^ t) / (f : ℚ) ^ 2,
              ∑ t in Finset.Icc 1 n, cp / base ^ t)
  | 0 => by simp [convexityLoop]
  | n + 1 => by
      rw [convexityLoop, convexityLoop_eq cp base f hb hf n]
      rw [show jsDiv cp (base ^ (n + 1)) = some (cp / base ^ (n + 1)) from by
        rw [jsDiv, if_neg (pow_ne_zero _ hb)]]
      simp only [Option.bind_eq_bind', Option.some_bind']
      rw [show jsDiv (((n : ℚ) + 1) * (((n : ℚ) + 1) + 1) * (cp / base ^ (n + 1)))
            ((f : ℚ) ^ 2)
          = some ((((n : ℚ) + 1) * (((n : ℚ) + 1) + 1) * (cp / base ^ (n + 1)))
            / (f : ℚ) ^ 2) from by
        rw [jsDiv, if_neg (pow_ne_zero _ hf)]]
      simp only [Option.bind_eq_bind', Option.some_bind']
      rw [Finset.sum_Icc_succ_top (Nat.le_add_left 1 n),
        Finset.sum_Icc_succ_top (Nat.le_add_left 1 n)]
      push_cast
      ring_nf

lemma calculateConvexity_isSome (couponRate : ℚ) (maturity : ℕ) (ytm : ℚ)
    (frequency : ℕ) (hc : 0 ≤ couponRate) (hf : 1 ≤ frequency)
    (hb : 0 < 1 + ytm / (frequency : ℚ)) :
    (calculateConvexity couponRate maturity ytm frequency).isSome := by
  have hfQ : (frequency : ℚ) ≠ 0 := Nat.cast_ne_zero.mpr (by omega)
  have hfpos : (0 : ℚ) < (frequency : ℚ) :=
    by exact_mod_cast (by omega : 0 < frequency)
  have hbne : (1 + ytm / (frequency : ℚ)) ≠ 0 := ne_of_gt hb
  have hppv : 0 < (100 : ℚ) / (1 + ytm / (frequency : ℚ)) ^ (maturity * frequency) :=
    div_pos (by norm_num) (pow_pos hb _)
  have hsum : 0 ≤ ∑ t in Finset.Icc 1 (maturity * frequency),
      couponRate * 100 / (frequency : ℚ) / (1 + ytm / (frequency : ℚ)) ^ t :=
    Finset.sum_nonneg fun t _ => div_nonneg (by positivity) (le_of_lt (pow_pos hb _))
  have hden : ((∑ t in Finset.Icc 1 (maturity * frequency),
      couponRate * 100 / (frequency : ℚ) / (1 + ytm / (frequency : ℚ)) ^ t)
        + 100 / (1 + ytm / (frequency : ℚ)) ^ (maturity * frequency))
        * (1 + ytm / (frequency : ℚ)) ^ 2 ≠ 0 :=
    ne_of_gt (mul_pos (add_pos_of_nonneg_of_pos hsum hppv) (pow_pos hb 2))
  rw [calculateConvexity]
  rw [show jsDiv (couponRate * 100) (frequency : ℚ)
      = some (couponRate * 100 / (frequency : ℚ)) from by rw [jsDiv, if_neg hfQ]]
  rw [show jsDiv ytm (frequency : ℚ) = some (ytm / (frequency : ℚ)) from by
    rw [jsDiv, if_neg hfQ]]
  simp only [Option.bind_eq_bind', Option.some_bind']
  rw [convexityLoop_eq _ _ _ hbne hfQ]
  simp only [Option.bind_eq_bind', Option.some_bind']
  rw [show jsDiv 100 ((1 + ytm / (frequency : ℚ)) ^ (maturity * frequency))
      = some (100 / (1 + ytm / (frequency : ℚ)) ^ (maturity * frequency)) from by
    rw [jsDiv, if_neg (pow_ne_zero _ hbne)]]
  simp only [Option.bind_eq_bind', Option.some_bind']
  rw [show jsDiv (((maturity * frequency : ℕ) : ℚ)
        * (((maturity * frequency : ℕ) : ℚ) + 1)
        * (100 / (1 + ytm / (frequency : ℚ)) ^ (maturity * frequency)))
      ((frequency : ℚ) ^ 2)
      = some ((((maturity * frequency : ℕ) : ℚ)
        * (((maturity * frequency : ℕ) : ℚ) + 1)
        * (100 / (1 + ytm / (frequency : ℚ)) ^ (maturity * frequency)))
        / (frequency : ℚ) ^ 2) from by
    rw [jsDiv, if_neg (pow_ne_zero _ hfQ)]]
  simp only [Option.bind_eq_bind', Option.some_bind']
  rw [jsDiv, if_neg hden]
  rfl

/-! ## Claim theorems -/

/-- **C10**: for every input and every value drawn from the normal sampler,
`vasicekRate` returns exactly `max 0 (r0 + a*(b - r0)*dt + sigma*sqrt(dt)*z)`,
and in particular a negative short rate is never produced. -/
theorem vasicekRate_nonneg (r0 a b sigma dt sqrtDt z0 : ℚ) :
    0 ≤ vasicekRate r0 a b sigma dt sqrtDt z0 ∧
    vasicekRate r0 a b sigma dt sqrtDt z0
      = max 0 (r0 + a * (b - r0) * dt + sigma * sqrtDt * z0) :=
  ⟨le_max_left 0 _, by simp [vasicekRate, randomNormal]⟩

/-- **C2**, counterexample to the claim as stated: at quantile `q = 1` the
code's lookup index `floor(3 * 1) = 3` is out of bounds and the lookup
returns no value (`undefined` in JS), whereas the claimed clamped index
`min(floor(trials*q), trials-1) = 2` would select the element `3`. -/
theorem getPercentile_not_clamped_at_one :
    getPercentile [1, 2, 3] 1 = none ∧
    [(1 : ℚ), 2, 3].get? (Int.toNat (min ⌊(3 : ℚ) * 1⌋ 2)) = some 3 := by
  constructor
  · norm_num [getPercentile]
  · rw [show min ⌊(3 : ℚ) * 1⌋ 2 = 2 from by norm_num]
    rfl

/-- **C2** (amended): percentile extraction performs no clamping; for every
quantile `q` with `0 ≤ q < 1` over a non-empty sorted sequence the index
`floor(trials * q)` is already in bounds and the lookup returns
`sorted[floor(trials * q)]`; at `q = 1` the lookup is out of bounds and
returns no value. -/
theorem getPercentile_in_bounds (arr : List ℚ) (q : ℚ)
    (h0 : 0 ≤ q) (h1 : q < 1) (hne : arr ≠ []) :
    ∃ v, getPercentile arr q = some v ∧
      arr.get? (⌊(arr.length : ℚ) * q⌋).toNat = some v := by
  have hlen : 0 < arr.length := List.length_pos.mpr hne
  have hlenQ : (0 : ℚ) < (arr.length : ℚ) := by exact_mod_cast hlen
  have hi0 : (0 : ℤ) ≤ ⌊(arr.length : ℚ) * q⌋ :=
    Int.floor_nonneg.mpr (mul_nonneg (le_of_lt hlenQ) h0)
  have hflt : ⌊(arr.length : ℚ) * q⌋ < (arr.length : ℤ) := by
    rw [Int.floor_lt]
    push_cast
    calc (arr.length : ℚ) * q < (arr.length : ℚ) * 1 :=
          mul_lt_mul_of_pos_left h1 hlenQ
      _ = (arr.length : ℚ) := mul_one _
  have htn : (⌊(arr.length : ℚ) * q⌋).toNat < arr.length := by omega
  refine ⟨arr.get ⟨(⌊(arr.length : ℚ) * q⌋).toNat, htn⟩, ?_, ?_⟩
  · rw [getPercentile, if_neg (by omega)]
    exact List.get?_eq_get htn
  · exact List.get?_eq_get htn

/-- **C2** witness: the in-bounds lookup at `q = 1/2` over `[1, 2, 3]`. -/
theorem getPercentile_in_bounds_witness :
    ∃ v, getPercentile [1, 2, 3] (1/2) = some v ∧
      [(1 : ℚ), 2, 3].get? (⌊(([(1 : ℚ), 2, 3].length : ℕ) : ℚ) * (1/2)⌋).toNat
        = some v :=
  getPercentile_in_bounds [1, 2, 3] (1/2) (by norm_num) (by norm_num) (by simp)

/-- **C3**, counterexample to the claim as stated: no configuration
validation exists.  Run with `trials = 0` the engine performs its (empty)
loops and hands an empty result sequence to the percentile step, whose
lookups all come back `undefined` — there is no `InvalidConfiguration`
failure.  Run with `stdDev = -1` (negative) the engine likewise computes
terminal values instead of rejecting the configuration. -/
theorem mc_invalid_config_runs_anyway :
    mcResults (fun _ _ => 0) 0 10 100 200000000 (9/100) (12/100) = [] ∧
    getPercentile
      (mcResults (fun _ _ => 0) 0 10 100 200000000 (9/100) (12/100)) (5/100)
        = none ∧
    mcResults (fun _ _ => 0) 1 1 1 100 0 (-1) = [100] := by
  have h : mcResults (fun _ _ => 0) 0 10 100 200000000 (9/100) (12/100) = [] := by
    simp [mcResults]
  refine ⟨h, by rw [h]; exact getPercentile_nil _, ?_⟩
  norm_num [mcResults, mcTerminal, compoundLoop, randomNormal, List.range_succ]

/-- **C3** (amended): the code performs no configuration validation
(`trials`, `years`, `bins` are hardcoded positive constants and `stdDev` is
never checked); a run of the engine with `trials = 0` returns an empty
terminal-value sequence and `undefined` (`none`) percentiles rather than a
typed `InvalidConfiguration` failure, for every other parameter choice. -/
theorem mc_no_config_validation (z : ℕ → ℕ → ℚ) (years pathsToShow : ℕ)
    (init mean stdDev q : ℚ) :
    mcResults z 0 years pathsToShow init mean stdDev = [] ∧
    getPercentile (mcResults z 0 years pathsToShow init mean stdDev) q
      = none := by
  have h : mcResults z 0 years pathsToShow init mean stdDev = [] := by
    simp [mcResults]
  exact ⟨h, by rw [h]; exact getPercentile_nil q⟩

/-- **C6**: in the degenerate no-variance configuration `mean = 0`,
`stdDev = 0` with `trials = 10000`, `years = 10`,
`initialValue = 200000000`, every terminal value equals exactly the initial
value, for every underlying random stream `z`. -/
theorem mc_zero_stdDev_terminal (z : ℕ → ℕ → ℚ) :
    mcResults z 10000 10 100 200000000 0 0
      = List.replicate 10000 (200000000 : ℚ) := by
  rw [List.eq_replicate]
  constructor
  · simp [mcResults]
  · intro b hb
    simp only [mcResults, List.mem_append, List.mem_map] at hb
    rcases hb with ⟨i, -, rfl⟩ | ⟨i, -, rfl⟩ <;>
      exact mcTerminal_zero_stdDev z 200000000 10 i

/-- **C7**: the number of captured sample paths is
`min(pathsToCapture, trials)` (so `pathsToCapture > trials` is clamped, not
an error), and every captured path has exactly `years + 1` points, the first
being `(year 0, initialValue)`. -/
theorem mc_samplePaths_shape (z : ℕ → ℕ → ℚ) (trials years pathsToShow : ℕ)
    (init mean stdDev : ℚ) :
    (mcPaths z trials years pathsToShow init mean stdDev).length
        = Nat.min pathsToShow trials ∧
    ∀ p ∈ mcPaths z trials years pathsToShow init mean stdDev,
      p.length = years + 1 ∧ p.head? = some (0, init) := by
  constructor
  · simp [mcPaths, Nat.min_comm]
  · intro p hp
    simp only [mcPaths, List.mem_map] at hp
    obtain ⟨i, -, rfl⟩ := hp
    constructor
    · simp [mcPath]
    · rw [mcPath, List.range_succ_eq_map]
      simp [compoundLoop]

/-- **C7** witness: a one-trial, one-year run with one captured path. -/
theorem mc_samplePaths_shape_witness :
    (mcPaths (fun _ _ => 0) 1 1 1 100 0 0).length = Nat.min 1 1 ∧
    (mcPath (fun _ _ => 0) 0 0 100 1 0).length = 1 + 1 ∧
    (mcPath (fun _ _ => 0) 0 0 100 1 0).head? = some (0, 100) :=
  ⟨(mc_samplePaths_shape (fun _ _ => 0) 1 1 1 100 0 0).1,
    (mc_samplePaths_shape (fun _ _ => 0) 1 1 1 100 0 0).2 _
      (by rw [mcPaths]; exact List.mem_map.mpr ⟨0, by simp, rfl⟩)⟩

/-- **C9**: for every trial `i` below `min(trials, pathsToCapture)`, the
last point of the `i`-th captured sample path is `(years, tv)` where `tv` is
exactly the `i`-th terminal value pushed to the (pre-sort) results sequence:
captured paths are consistent with the terminal-value statistics. -/
theorem mc_path_last_matches_terminal (z : ℕ → ℕ → ℚ)
    (trials years pathsToShow : ℕ) (init mean stdDev : ℚ) (i : ℕ)
    (hi : i < Nat.min trials pathsToShow) :
    ∃ p, (mcPaths z trials years pathsToShow init mean stdDev).get? i
        = some p ∧
      ∃ tv, (mcResults z trials years pathsToShow init mean stdDev).get? i
          = some tv ∧
        p.getLast? = some (years, tv) := by
  refine ⟨mcPath z mean stdDev init years i, ?_,
    mcTerminal z mean stdDev init years i, ?_, ?_⟩
  · rw [mcPaths, List.get?_map, List.get?_range hi]
    rfl
  · rw [mcResults, List.get?_append (by simpa using hi), List.get?_map,
      List.get?_range hi]
    rfl
  · rw [mcPath, List.range_succ, List.map_append]
    simp [mcTerminal]

/-- **C9** witness: trial `0` of a one-trial run. -/
theorem mc_path_last_matches_terminal_witness :
    ∃ p, (mcPaths (fun _ _ => 0) 1 1 1 100 0 0).get? 0 = some p ∧
      ∃ tv, (mcResults (fun _ _ => 0) 1 1 1 100 0 0).get? 0 = some tv ∧
        p.getLast? = some (1, tv) :=
  mc_path_last_matches_terminal (fun _ _ => 0) 1 1 1 100 0 0 0 (by decide)

/-- **C4**, counterexample to the claim as stated: in a run where every
terminal value is equal (the degenerate `stdDev = 0` case, here the data
`[5, 5]` with `trials = 2`), `binSize = (max - min)/50 = 0`, so every value's
bin index is `Math.floor(0/0) = NaN`; `histogram[NaN]++` touches no numeric
bin entry, and the histogram counts sum to `0`, not `trials`. -/
theorem createHistogram_all_equal_loses_counts :
    (createHistogram [5, 5]).sum = 0 ∧
    (createHistogram [5, 5]).sum ≠ [(5 : ℚ), 5].length := by
  have h : (createHistogram [5, 5]).sum = 0 := by
    norm_num [createHistogram, jsMin, jsMax, binIndex, jsInc]
  exact ⟨h, by rw [h]; norm_num⟩

/-- **C4** (amended): whenever the terminal values are not all equal
(`min < max`, so `binSize > 0`), every value lands in exactly one of the 50
bins and the histogram counts sum to `trials`; when all terminal values are
equal, `binSize = 0` and the counts sum to `0` instead. -/
theorem createHistogram_counts_sum (v : ℚ) (rest : List ℚ)
    (h : jsMin v rest < jsMax v rest) :
    (createHistogram (v :: rest)).sum = (v :: rest).length := by
  have hs : 0 < (jsMax v rest - jsMin v rest) / 50 :=
    div_pos (by linarith) (by norm_num)
  have hcond : ∀ x ∈ v :: rest,
      ∃ i, binIndex ((jsMax v rest - jsMin v rest) / 50) (jsMin v rest) x
          = some i ∧ i < (List.replicate 50 0).length := by
    intro x hx
    have hmx : jsMin v rest ≤ x := by
      rcases List.mem_cons.mp hx with rfl | hx'
      · exact foldl_min_le_init rest x
      · exact foldl_min_le_mem rest v x hx'
    obtain ⟨i, hi, hlt⟩ := binIndex_valid _ _ x hs hmx
    exact ⟨i, hi, by simpa using hlt⟩
  have := foldl_jsInc_sum
    (binIndex ((jsMax v rest - jsMin v rest) / 50) (jsMin v rest)) (v :: rest)
    (List.replicate 50 0) hcond
  simp only [createHistogram]
  simpa using this

/-- **C4** witness: the two-element run `[1, 2]`, whose counts sum to `2`. -/
theorem createHistogram_counts_sum_witness :
    jsMin 1 [2] < jsMax 1 [2] ∧
    (createHistogram [1, 2]).sum = [(1 : ℚ), 2].length :=
  ⟨by norm_num [jsMin, jsMax],
    createHistogram_counts_sum 1 [2] (by norm_num [jsMin, jsMax])⟩

/-- **C1**: for every instrument with a positive integer `paymentsPerYear`,
positive `maturityYears`, `1 + ytm/paymentsPerYear > 0` (and a nonnegative
coupon rate, as the data model's coupon fraction is), `calculateDuration`
returns exactly the spec's time-weighted average of discounted cash flows
divided by price: `Σ(t/freq · PV(t)) / price` over all coupon periods
`t = 1..maturityYears·paymentsPerYear` plus the principal term with time
weight `maturityYears`. -/
theorem calculateDuration_matches_spec (couponRate : ℚ) (maturity : ℕ)
    (ytm : ℚ) (frequency : ℕ) (hc : 0 ≤ couponRate) (_hm : 1 ≤ maturity)
    (hf : 1 ≤ frequency) (hb : 0 < 1 + ytm / (frequency : ℚ)) :
    calculateDuration couponRate maturity ytm frequency
      = some (specMacaulayDuration couponRate maturity ytm frequency) :=
  calculateDuration_eq_spec couponRate maturity ytm frequency hc hf hb

/-- **C1** witness: the spec's §8 example instrument
`{couponRate: 0.048, maturityYears: 10, ytm: 0.0521, paymentsPerYear: 1}`. -/
theorem calculateDuration_matches_spec_witness :
    calculateDuration (48/1000) 10 (521/10000) 1
      = some (specMacaulayDuration (48/1000) 10 (521/10000) 1) :=
  calculateDuration_matches_spec (48/1000) 10 (521/10000) 1 (by norm_num)
    (by norm_num) (by norm_num) (by norm_num)

/-- **C8**: for every instrument with `ytm > 0` whose Macaulay duration the
code computes (a finite value `mac`, positive under the stated validity
hypotheses), the modified duration `mac / (1 + ytm/paymentsPerYear)` is
strictly less than `mac`. -/
theorem modifiedDuration_lt_macaulay (couponRate : ℚ) (maturity : ℕ)
    (ytm : ℚ) (frequency : ℕ) (mac : ℚ) (hc : 0 ≤ couponRate)
    (hm : 1 ≤ maturity) (hf : 1 ≤ frequency) (hy : 0 < ytm)
    (hmac : calculateDuration couponRate maturity ytm frequency = some mac) :
    ∃ md, calculateModifiedDuration mac ytm frequency = some md ∧ md < mac := by
  have hfQ : (0 : ℚ) < (frequency : ℚ) :=
    by exact_mod_cast (by omega : 0 < frequency)
  have hyf : 0 < ytm / (frequency : ℚ) := div_pos hy hfQ
  have hb : 0 < 1 + ytm / (frequency : ℚ) := by linarith
  rw [calculateDuration_eq_spec couponRate maturity ytm frequency hc hf hb]
    at hmac
  have hmacv : specMacaulayDuration couponRate maturity ytm frequency = mac :=
    Option.some.inj hmac
  have hpos : 0 < mac :=
    hmacv ▸ specMacaulayDuration_pos couponRate maturity ytm frequency hc hm hf hb
  refine ⟨mac / (1 + ytm / (frequency : ℚ)), ?_, ?_⟩
  · rw [calculateModifiedDuration]
    rw [show jsDiv ytm (frequency : ℚ) = some (ytm / (frequency : ℚ)) from by
      rw [jsDiv, if_neg (ne_of_gt hfQ)]]
    simp only [Option.bind_eq_bind', Option.some_bind']
    rw [jsDiv, if_neg (ne_of_gt hb)]
  · exact div_lt_self hpos (by linarith)

/-- **C8** witness: the zero-coupon one-year instrument with `ytm = 1`,
whose Macaulay duration is exactly `1` and modified duration `1/2`. -/
theorem modifiedDuration_lt_macaulay_witness :
    ∃ md, calculateModifiedDuration 1 1 1 = some md ∧ md < 1 :=
  modifiedDuration_lt_macaulay 0 1 1 1 1 (le_refl 0) (le_refl 1) (le_refl 1)
    (by norm_num) (by norm_num [calculateDuration, durationLoop, jsDiv])

/-- **C5**, counterexample to the claim as stated: the bond-metric
computations perform no input validation and do silently produce non-finite
values.  For `ytm = -1, paymentsPerYear = 1` (so `ytm/freq = -1` and the
discount base is `0`), both `calculateDuration` and `calculateConvexity`
divide by zero and return a non-finite number (`none` here models the JS
`NaN`/`Infinity` result) — no `InvalidInput` failure is raised anywhere in
the code. -/
theorem bondMetrics_silent_nonfinite :
    calculateDuration (48/1000) 1 (-1) 1 = none ∧
    calculateConvexity (48/1000) 1 (-1) 1 = none := by
  constructor
  · norm_num [calculateDuration, durationLoop, jsDiv]
  · norm_num [calculateConvexity, convexityLoop, jsDiv]

/-- **C5** (amended): the code rejects nothing; an input with
`1 + ytm/paymentsPerYear = 0` silently yields a non-finite (`NaN`/`Infinity`)
result.  On the validity domain — `paymentsPerYear ≥ 1`, nonnegative coupon,
`1 + ytm/paymentsPerYear > 0` — both metrics do return finite numbers. -/
theorem bondMetrics_finite_on_valid_inputs (couponRate : ℚ) (maturity : ℕ)
    (ytm : ℚ) (frequency : ℕ) (hc : 0 ≤ couponRate) (hf : 1 ≤ frequency)
    (hb : 0 < 1 + ytm / (frequency : ℚ)) :
    (calculateDuration couponRate maturity ytm frequency).isSome ∧
    (calculateConvexity couponRate maturity ytm frequency).isSome := by
  constructor
  · rw [calculateDuration_eq_spec couponRate maturity ytm frequency hc hf hb]
    rfl
  · exact calculateConvexity_isSome couponRate maturity ytm frequency hc hf hb

/-- **C5** witness: the spec's §8 example instrument is on the validity
domain and both metrics are finite there. -/
theorem bondMetrics_finite_on_valid_inputs_witness :
    (calculateDuration (48/1000) 10 (521/10000) 1).isSome ∧
    (calculateConvexity (48/1000) 10 (521/10000) 1).isSome :=
  bondMetrics_finite_on_valid_inputs (48/1000) 10 (521/10000) 1 (by norm_num)
    (by norm_num) (by norm_num)

end VnInvest
